import Mathlib

/-!
# Verification of the go-crypto-suite key abstraction layer

Shallow embedding of the repository's composition/encoding/dispatch layer:
the wire envelope `<algorithm-id>.<base64(payload)>`, PKCS#7 padding,
AES-CBC / AES-GCM encrypt/decrypt, HMAC sign/verify, ECDSA sign/verify,
Argon2 sign/verify, and key import/stretching.

Byte strings are `List Nat` with every element `< 256`.  External
cryptographic primitives (the AES block cipher, GCM seal/open, HMAC, PBKDF2,
Argon2, ECDSA ASN.1 verification, the secure random source) are out of scope
per the specification and are passed in as function parameters together with
their documented contracts.  Go runtime panics (out-of-range slicing,
`CryptBlocks` on partial blocks) are modelled explicitly by a `panicked`
result so that abort behaviour is visible.
-/

namespace CryptoSuite

/-- Byte strings: lists of naturals, meaningful when every element is `< 256`. -/
abbrev Bytes := List Nat

/-- All elements are genuine bytes. -/
def validBytes (b : Bytes) : Prop := ∀ x ∈ b, x < 256

instance validBytes.dec (b : Bytes) : Decidable (validBytes b) := by
  unfold validBytes; infer_instance

/-! ## Base64 (Go `encoding/base64`, standard and raw-standard alphabets) -/

/-- The standard base64 alphabet: sextet value to ASCII code. -/
def encChar (s : Nat) : Nat :=
  if s < 26 then 65 + s
  else if s < 52 then 97 + (s - 26)
  else if s < 62 then 48 + (s - 52)
  else if s = 62 then 43
  else 47

/-- Inverse of the standard base64 alphabet: ASCII code to sextet value. -/
def decChar (c : Nat) : Option Nat :=
  if 65 ≤ c ∧ c ≤ 90 then some (c - 65)
  else if 97 ≤ c ∧ c ≤ 122 then some (c - 97 + 26)
  else if 48 ≤ c ∧ c ≤ 57 then some (c - 48 + 52)
  else if c = 43 then some 62
  else if c = 47 then some 63
  else none

/-- Go `base64.StdEncoding.EncodeToString`: padded standard base64. -/
def b64Encode : Bytes → Bytes
  | [] => []
  | [a] => [encChar (a / 4), encChar (a % 4 * 16), 61, 61]
  | [a, b] => [encChar (a / 4), encChar (a % 4 * 16 + b / 16), encChar (b % 16 * 4), 61]
  | a :: b :: c :: rest =>
      encChar (a / 4) :: encChar (a % 4 * 16 + b / 16) ::
      encChar (b % 16 * 4 + c / 64) :: encChar (c % 64) :: b64Encode rest

/-- Go `base64.StdEncoding.DecodeString`: padded standard base64 decoding,
rejecting non-alphabet characters, bad lengths and non-canonical trailing
bits. -/
def b64Decode : Bytes → Option Bytes
  | [] => some []
  | c1 :: c2 :: c3 :: c4 :: rest =>
      if rest = [] ∧ c4 = 61 then
        if c3 = 61 then
          match decChar c1, decChar c2 with
          | some s1, some s2 => if s2 % 16 = 0 then some [s1 * 4 + s2 / 16] else none
          | _, _ => none
        else
          match decChar c1, decChar c2, decChar c3 with
          | some s1, some s2, some s3 =>
              if s3 % 4 = 0 then some [s1 * 4 + s2 / 16, s2 % 16 * 16 + s3 / 4] else none
          | _, _, _ => none
      else
        match decChar c1, decChar c2, decChar c3, decChar c4, b64Decode rest with
        | some s1, some s2, some s3, some s4, some bs =>
            some ((s1 * 4 + s2 / 16) :: (s2 % 16 * 16 + s3 / 4) :: (s3 % 4 * 64 + s4) :: bs)
        | _, _, _, _, _ => none
  | _ => none

/-- Go `base64.RawStdEncoding.EncodeToString`: unpadded standard base64. -/
def b64RawEncode : Bytes → Bytes
  | [] => []
  | [a] => [encChar (a / 4), encChar (a % 4 * 16)]
  | [a, b] => [encChar (a / 4), encChar (a % 4 * 16 + b / 16), encChar (b % 16 * 4)]
  | a :: b :: c :: rest =>
      encChar (a / 4) :: encChar (a % 4 * 16 + b / 16) ::
      encChar (b % 16 * 4 + c / 64) :: encChar (c % 64) :: b64RawEncode rest

/-- Go `base64.RawStdEncoding.DecodeString`: unpadded standard base64 decoding. -/
def b64RawDecode : Bytes → Option Bytes
  | [] => some []
  | [c1, c2] =>
      match decChar c1, decChar c2 with
      | some s1, some s2 => if s2 % 16 = 0 then some [s1 * 4 + s2 / 16] else none
      | _, _ => none
  | [c1, c2, c3] =>
      match decChar c1, decChar c2, decChar c3 with
      | some s1, some s2, some s3 =>
          if s3 % 4 = 0 then some [s1 * 4 + s2 / 16, s2 % 16 * 16 + s3 / 4] else none
      | _, _, _ => none
  | c1 :: c2 :: c3 :: c4 :: rest =>
      match decChar c1, decChar c2, decChar c3, decChar c4, b64RawDecode rest with
      | some s1, some s2, some s3, some s4, some bs =>
          some ((s1 * 4 + s2 / 16) :: (s2 % 16 * 16 + s3 / 4) :: (s3 % 4 * 64 + s4) :: bs)
      | _, _, _, _, _ => none
  | _ => none

theorem decChar_encChar_all : ∀ s < 64, decChar (encChar s) = some s := by decide

theorem encChar_ne_61_all : ∀ s < 64, encChar s ≠ 61 := by decide

theorem decChar_encChar {s : Nat} (h : s < 64) : decChar (encChar s) = some s :=
  decChar_encChar_all s h

theorem encChar_ne_61 {s : Nat} (h : s < 64) : encChar s ≠ 61 :=
  encChar_ne_61_all s h

theorem encChar_lt (s : Nat) : encChar s < 123 := by
  unfold encChar; split <;> [omega; split <;> [omega; split <;> [omega; split <;> omega]]]

theorem encChar_ne_36 (s : Nat) : encChar s ≠ 36 := by
  unfold encChar; split <;> [omega; split <;> [omega; split <;> [omega; split <;> omega]]]

/-- Padded base64 decoding is a left inverse of encoding on byte strings. -/
theorem b64Decode_b64Encode (l : Bytes) (h : validBytes l) :
    b64Decode (b64Encode l) = some l := by
  induction l using b64Encode.induct with
  | case1 => rfl
  | case2 a =>
      have ha : a < 256 := h a (by simp)
      simp only [b64Encode, b64Decode]
      rw [decChar_encChar (by omega), decChar_encChar (by omega)]
      simp
      all_goals omega
  | case3 a b =>
      have ha : a < 256 := h a (by simp)
      have hb : b < 256 := h b (by simp)
      simp only [b64Encode, b64Decode]
      rw [if_pos (by exact ⟨trivial, trivial⟩),
        if_neg (encChar_ne_61 (show b % 16 * 4 < 64 by omega))]
      rw [decChar_encChar (by omega), decChar_encChar (by omega), decChar_encChar (by omega)]
      simp
      all_goals omega
  | case4 a b c rest ih =>
      have ha : a < 256 := h a (by simp)
      have hb : b < 256 := h b (by simp)
      have hc : c < 256 := h c (by simp)
      have hrest : validBytes rest := fun x hx => h x (by simp [hx])
      simp only [b64Encode, b64Decode]
      rw [if_neg (fun hcontra => encChar_ne_61 (show c % 64 < 64 by omega) hcontra.2)]
      rw [decChar_encChar (by omega), decChar_encChar (by omega),
        decChar_encChar (by omega), decChar_encChar (by omega), ih hrest]
      simp
      all_goals omega

/-- Unpadded (raw) base64 decoding is a left inverse of encoding. -/
theorem b64RawDecode_b64RawEncode (l : Bytes) (h : validBytes l) :
    b64RawDecode (b64RawEncode l) = some l := by
  induction l using b64RawEncode.induct with
  | case1 => rfl
  | case2 a =>
      have ha : a < 256 := h a (by simp)
      simp only [b64RawEncode, b64RawDecode]
      rw [decChar_encChar (by omega), decChar_encChar (by omega)]
      simp
      all_goals omega
  | case3 a b =>
      have ha : a < 256 := h a (by simp)
      have hb : b < 256 := h b (by simp)
      simp only [b64RawEncode, b64RawDecode]
      rw [decChar_encChar (by omega), decChar_encChar (by omega), decChar_encChar (by omega)]
      simp
      all_goals omega
  | case4 a b c rest ih =>
      have ha : a < 256 := h a (by simp)
      have hb : b < 256 := h b (by simp)
      have hc : c < 256 := h c (by simp)
      have hrest : validBytes rest := fun x hx => h x (by simp [hx])
      simp only [b64RawEncode, b64RawDecode]
      rw [decChar_encChar (by omega), decChar_encChar (by omega),
        decChar_encChar (by omega), decChar_encChar (by omega), ih hrest]
      simp
      all_goals omega

/-- Raw base64 output contains no `$` character (ASCII 36). -/
theorem b64RawEncode_no_36 (l : Bytes) : 36 ∉ b64RawEncode l := by
  induction l using b64RawEncode.induct with
  | case1 => simp [b64RawEncode]
  | case2 a =>
      simp only [b64RawEncode, List.mem_cons, List.not_mem_nil, or_false]
      rintro (h | h) <;> exact encChar_ne_36 _ h.symm
  | case3 a b =>
      simp only [b64RawEncode, List.mem_cons, List.not_mem_nil, or_false]
      rintro (h | h | h) <;> exact encChar_ne_36 _ h.symm
  | case4 a b c rest ih =>
      simp only [b64RawEncode, List.mem_cons]
      rintro (h | h | h | h | h)
      · exact encChar_ne_36 _ h.symm
      · exact encChar_ne_36 _ h.symm
      · exact encChar_ne_36 _ h.symm
      · exact encChar_ne_36 _ h.symm
      · exact ih h

/-! ## Decimal integers (Go `strconv.Itoa` / `strconv.Atoi`) -/

def natRenderAux : Nat → Nat → Bytes
  | 0, _ => []
  | fuel + 1, n =>
      if n < 10 then [48 + n]
      else natRenderAux fuel (n / 10) ++ [48 + n % 10]

/-- Go `strconv.Itoa` on a non-negative value: decimal digits, ASCII (the fuel
`n + 1` always suffices since `n / 10 < n`). -/
def natRender (n : Nat) : Bytes := natRenderAux (n + 1) n

theorem natRenderAux_fuel_irrel :
    ∀ (f1 f2 n : Nat), n < f1 → n < f2 → natRenderAux f1 n = natRenderAux f2 n := by
  intro f1
  induction f1 with
  | zero => intro f2 n h1 _; omega
  | succ f ih =>
      intro f2 n h1 h2
      obtain ⟨g, hg⟩ : ∃ g, f2 = g + 1 := ⟨f2 - 1, by omega⟩
      subst hg
      by_cases h : n < 10
      · rw [natRenderAux, natRenderAux, if_pos h, if_pos h]
      · rw [natRenderAux, natRenderAux, if_neg h, if_neg h,
          ih g (n / 10) (by omega) (by omega)]

/-- The defining recurrence of `natRender`. -/
theorem natRender_eq (n : Nat) :
    natRender n = if n < 10 then [48 + n] else natRender (n / 10) ++ [48 + n % 10] := by
  rw [natRender, natRenderAux]
  by_cases h : n < 10
  · rw [if_pos h, if_pos h]
  · rw [if_neg h, if_neg h, natRender,
      natRenderAux_fuel_irrel n (n / 10 + 1) (n / 10) (by omega) (by omega)]

/-- Go `strconv.Itoa` on a Go `int`. -/
def intRender (i : Int) : Bytes :=
  if i < 0 then 45 :: natRender i.natAbs else natRender i.toNat

def parseDigitsAux : Bytes → Nat → Option Nat
  | [], acc => some acc
  | c :: s, acc => if 48 ≤ c ∧ c ≤ 57 then parseDigitsAux s (acc * 10 + (c - 48)) else none

/-- A non-empty all-digit string parsed as a natural number. -/
def parseDigits (s : Bytes) : Option Nat :=
  if s = [] then none else parseDigitsAux s 0

/-- Go `strconv.Atoi`: optional sign, then a non-empty run of decimal digits
(arbitrary precision; the `int` overflow error cannot fire on the small
algorithm tags this layer renders). -/
def goAtoi (s : Bytes) : Option Int :=
  match s with
  | [] => none
  | c :: rest =>
      if c = 43 then (parseDigits rest).map Int.ofNat
      else if c = 45 then (parseDigits rest).map (fun n => -(n : Int))
      else (parseDigits (c :: rest)).map Int.ofNat

theorem natRender_ne_nil (n : Nat) : natRender n ≠ [] := by
  rw [natRender_eq]; split <;> simp

theorem natRender_mem (n : Nat) : ∀ x ∈ natRender n, 48 ≤ x ∧ x ≤ 57 := by
  induction n using Nat.strong_induction_on with
  | _ n ih =>
      intro x hx
      rw [natRender_eq] at hx
      by_cases h : n < 10
      · rw [if_pos h] at hx; simp at hx; omega
      · rw [if_neg h] at hx
        rcases List.mem_append.mp hx with h1 | h1
        · exact ih (n / 10) (Nat.div_lt_self (by omega) (by omega)) x h1
        · simp at h1; omega

theorem parseDigitsAux_append (s t : Bytes) (acc : Nat) :
    parseDigitsAux (s ++ t) acc = (parseDigitsAux s acc).bind (fun a => parseDigitsAux t a) := by
  induction s generalizing acc with
  | nil => simp [parseDigitsAux]
  | cons c s ih =>
      simp only [List.cons_append, parseDigitsAux]
      split
      · exact ih _
      · simp

theorem parseDigitsAux_natRender (n : Nat) :
    ∀ acc, parseDigitsAux (natRender n) acc =
      some (acc * 10 ^ (natRender n).length + n) := by
  induction n using Nat.strong_induction_on with
  | _ n ih =>
      intro acc
      rw [natRender_eq]
      by_cases h : n < 10
      · rw [if_pos h]
        simp only [parseDigitsAux, if_pos (by omega : 48 ≤ 48 + n ∧ 48 + n ≤ 57)]
        simp only [List.length_cons, List.length_nil]
        norm_num
      · rw [if_neg h]
        rw [parseDigitsAux_append, ih (n / 10) (Nat.div_lt_self (by omega) (by omega))]
        simp only [Option.some_bind, parseDigitsAux,
          if_pos (by omega : 48 ≤ 48 + n % 10 ∧ 48 + n % 10 ≤ 57)]
        simp only [List.length_append, List.length_cons, List.length_nil]
        rw [pow_succ]
        simp only [Option.some.injEq]
        have h48 : 48 + n % 10 - 48 = n % 10 := by omega
        rw [h48]
        have key : (acc * 10 ^ (natRender (n / 10)).length + n / 10) * 10 + n % 10 =
            acc * (10 ^ (natRender (n / 10)).length * 10) + (n / 10 * 10 + n % 10) := by ring
        rw [key, show n / 10 * 10 + n % 10 = n from by omega]

theorem parseDigits_natRender (n : Nat) : parseDigits (natRender n) = some n := by
  rw [parseDigits, if_neg (natRender_ne_nil n), parseDigitsAux_natRender]
  simp

/-- Go `Atoi` is a left inverse of `Itoa`. -/
theorem goAtoi_intRender (i : Int) : goAtoi (intRender i) = some i := by
  rw [intRender]
  by_cases h : i < 0
  · rw [if_pos h]
    simp only [goAtoi]
    rw [if_pos trivial, parseDigits_natRender]
    simp only [Option.some_bind, Option.map_some', Option.some.injEq, pure]
    rw [if_neg (by decide : ¬ (45 = 43))]
    simp only [Option.bind_eq_bind, Option.some_bind, Option.map_some', Option.some.injEq]
    omega
  · rw [if_neg h]
    obtain ⟨c, s, hcs⟩ : ∃ c s, natRender i.toNat = c :: s := by
      cases hn : natRender i.toNat with
      | nil => exact absurd hn (natRender_ne_nil _)
      | cons c s => exact ⟨c, s, rfl⟩
    have hc : 48 ≤ c ∧ c ≤ 57 := natRender_mem i.toNat c (by rw [hcs]; simp)
    rw [hcs]
    simp only [goAtoi, if_neg (by omega : ¬ c = 43), if_neg (by omega : ¬ c = 45)]
    rw [← hcs, parseDigits_natRender]
    simp only [Option.map_some', Option.some.injEq]
    rw [show Int.ofNat i.toNat = (i.toNat : Int) from rfl]
    omega

theorem intRender_inj {i j : Int} (h : intRender i = intRender j) : i = j := by
  have hi := goAtoi_intRender i
  have hj := goAtoi_intRender j
  rw [h, hj] at hi
  exact (Option.some.inj hi).symm

theorem natRender_no_46 (n : Nat) : 46 ∉ natRender n := fun h => by
  have := natRender_mem n 46 h; omega

theorem intRender_no_46 (i : Int) : 46 ∉ intRender i := by
  rw [intRender]
  split
  · intro h
    rcases List.mem_cons.mp h with h | h
    · omega
    · exact natRender_no_46 _ h
  · exact natRender_no_46 _

/-! ## Splitting (Go `strings.SplitN`) -/

/-- Go `strings.SplitN(s, sep, 2)` for a one-byte separator; `none` models the
one-element result returned when the separator is absent. -/
def splitOnce (sep : Nat) : Bytes → Option (Bytes × Bytes)
  | [] => none
  | c :: rest =>
      if c = sep then some ([], rest)
      else (splitOnce sep rest).map (fun p => (c :: p.1, p.2))

theorem splitOnce_append {sep : Nat} {s : Bytes} (hs : sep ∉ s) (t : Bytes) :
    splitOnce sep (s ++ sep :: t) = some (s, t) := by
  induction s with
  | nil => simp [splitOnce]
  | cons c s ih =>
      have hc : c ≠ sep := fun h => hs (by simp [h])
      have ih' := ih (fun h => hs (List.mem_cons_of_mem _ h))
      simp only [List.cons_append, splitOnce, if_neg hc]
      rw [show (s.append (sep :: t)) = s ++ sep :: t from rfl, ih']
      rfl

theorem splitOnce_eq_some {sep : Nat} :
    ∀ {s p q : Bytes}, splitOnce sep s = some (p, q) → s = p ++ sep :: q ∧ sep ∉ p := by
  intro s
  induction s with
  | nil => intro p q h; exact absurd h (by simp [splitOnce])
  | cons c rest ih =>
      intro p q h
      rw [splitOnce] at h
      by_cases hc : c = sep
      · rw [if_pos hc] at h
        have hpq := Option.some.inj h
        rw [Prod.mk.injEq] at hpq
        obtain ⟨h1, h2⟩ := hpq
        subst hc
        rw [← h1, ← h2]
        simp
      · rw [if_neg hc] at h
        cases hrec : splitOnce sep rest with
        | none => rw [hrec] at h; exact absurd h (by simp)
        | some pr =>
            obtain ⟨p', q'⟩ := pr
            rw [hrec] at h
            have h' : some (c :: p', q') = some (p, q) := h
            have hpq := Option.some.inj h'
            rw [Prod.mk.injEq] at hpq
            obtain ⟨h1, h2⟩ := hpq
            obtain ⟨hs, hn⟩ := ih hrec
            rw [← h1, ← h2]
            constructor
            · simp [hs]
            · intro hm
              rcases List.mem_cons.mp hm with hm | hm
              · exact hc hm.symm
              · exact hn hm

/-- Go `strings.SplitN(s, sep, n)` for `n ≥ 1`: at most `n` parts, the last part
being the unsplit remainder. -/
def splitSepN (sep : Nat) : Nat → Bytes → List Bytes
  | 0, _ => []
  | 1, s => [s]
  | Nat.succ (Nat.succ m), s =>
      match splitOnce sep s with
      | none => [s]
      | some (a, b) => a :: splitSepN sep (m + 1) b

/-! ## XOR and 16-byte blocks (Go `crypto/cipher` CBC mode) -/

def xorBytes (a b : Bytes) : Bytes := List.zipWith (fun x y => x ^^^ y) a b

theorem xorBytes_length (a b : Bytes) : (xorBytes a b).length = min a.length b.length := by
  simp [xorBytes]

theorem xorBytes_self_cancel :
    ∀ (a b : Bytes), a.length = b.length → xorBytes a (xorBytes a b) = b := by
  intro a
  induction a with
  | nil =>
      intro b h
      have hb : b = [] := List.eq_nil_of_length_eq_zero (by simpa using h.symm)
      subst hb; rfl
  | cons x a ih =>
      intro b h
      cases b with
      | nil => simp at h
      | cons y b =>
          simp only [xorBytes, List.zipWith_cons_cons, List.cons.injEq]
          constructor
          · rw [← Nat.xor_assoc, Nat.xor_self, Nat.zero_xor]
          · exact ih b (by simpa using h)

theorem xor_lt_256 {x y : Nat} (hx : x < 256) (hy : y < 256) : x ^^^ y < 256 := by
  have h := Nat.xor_lt_two_pow (show x < 2 ^ 8 by omega) (show y < 2 ^ 8 by omega)
  omega

theorem xorBytes_valid : ∀ {a b : Bytes}, validBytes a → validBytes b →
    validBytes (xorBytes a b) := by
  intro a
  induction a with
  | nil => intro b _ _; intro x hx; simp [xorBytes] at hx
  | cons c a ih =>
      intro b ha hb
      cases b with
      | nil => intro x hx; simp [xorBytes] at hx
      | cons d b =>
          intro x hx
          simp only [xorBytes, List.zipWith_cons_cons, List.mem_cons] at hx
          rcases hx with hx | hx
          · subst hx
            exact xor_lt_256 (ha c (by simp)) (hb d (by simp))
          · exact ih (fun y hy => ha y (by simp [hy])) (fun y hy => hb y (by simp [hy])) x hx

def toBlocksAux : Nat → Bytes → List Bytes
  | 0, _ => []
  | fuel + 1, l =>
      if l = [] then []
      else l.take 16 :: toBlocksAux fuel (l.drop 16)

/-- Split a byte string into consecutive 16-byte blocks (the block traversal
of Go's `cbc.CryptBlocks`); the fuel `l.length` suffices since every step
consumes at least one byte. -/
def toBlocks (l : Bytes) : List Bytes := toBlocksAux l.length l

theorem toBlocksAux_fuel_irrel :
    ∀ (f1 f2 : Nat) (l : Bytes), l.length ≤ f1 → l.length ≤ f2 →
      toBlocksAux f1 l = toBlocksAux f2 l := by
  intro f1
  induction f1 with
  | zero =>
      intro f2 l h1 _
      have hl : l = [] := List.eq_nil_of_length_eq_zero (by omega)
      subst hl
      cases f2 with
      | zero => rfl
      | succ g => simp [toBlocksAux]
  | succ f ih =>
      intro f2 l h1 h2
      by_cases hl : l = []
      · subst hl
        cases f2 with
        | zero => simp [toBlocksAux]
        | succ g => simp [toBlocksAux]
      · have hlen : l.length ≠ 0 := fun h0 => hl (List.eq_nil_of_length_eq_zero h0)
        obtain ⟨g, hg⟩ : ∃ g, f2 = g + 1 := ⟨f2 - 1, by omega⟩
        subst hg
        rw [toBlocksAux, toBlocksAux, if_neg hl, if_neg hl,
          ih g (l.drop 16) (by rw [List.length_drop]; omega) (by rw [List.length_drop]; omega)]

/-- The defining recurrence of `toBlocks`. -/
theorem toBlocks_eq (l : Bytes) :
    toBlocks l = if l = [] then [] else l.take 16 :: toBlocks (l.drop 16) := by
  by_cases hl : l = []
  · subst hl; rw [if_pos rfl]; rfl
  · have hlen : l.length ≠ 0 := fun h0 => hl (List.eq_nil_of_length_eq_zero h0)
    rw [if_neg hl, toBlocks, toBlocks]
    obtain ⟨g, hg⟩ : ∃ g, l.length = g + 1 := ⟨l.length - 1, by omega⟩
    rw [hg, toBlocksAux, if_neg hl,
      toBlocksAux_fuel_irrel g ((l.drop 16).length) (l.drop 16)
        (by rw [List.length_drop]; omega) le_rfl]

theorem toBlocks_flatten :
    ∀ (bs : List Bytes), (∀ b ∈ bs, b.length = 16) → toBlocks bs.flatten = bs := by
  intro bs
  induction bs with
  | nil => intro _; rw [toBlocks_eq]; simp
  | cons b rest ih =>
      intro h
      have hb : b.length = 16 := h b (by simp)
      have hflat : (b ++ rest.flatten) ≠ [] := by
        intro hcontra
        have := congrArg List.length hcontra
        simp [hb] at this
      rw [List.flatten_cons, toBlocks_eq, if_neg hflat]
      rw [List.take_left' hb, List.drop_left' hb]
      rw [ih (fun x hx => h x (by simp [hx]))]

theorem flatten_toBlocks_aux :
    ∀ (n : Nat) (l : Bytes), l.length ≤ n → l.length % 16 = 0 →
      (toBlocks l).flatten = l ∧ (∀ b ∈ toBlocks l, b.length = 16) := by
  intro n
  induction n with
  | zero =>
      intro l hl _
      have hnil : l = [] := List.eq_nil_of_length_eq_zero (by omega)
      subst hnil
      rw [toBlocks_eq]; simp
  | succ n ih =>
      intro l hl hmod
      by_cases hnil : l = []
      · subst hnil; rw [toBlocks_eq]; simp
      · have hlen : l.length ≠ 0 := fun h0 => hnil (List.eq_nil_of_length_eq_zero h0)
        have h16 : 16 ≤ l.length := by omega
        have hdrop : (l.drop 16).length ≤ n := by rw [List.length_drop]; omega
        have hdropmod : (l.drop 16).length % 16 = 0 := by rw [List.length_drop]; omega
        obtain ⟨ih1, ih2⟩ := ih (l.drop 16) hdrop hdropmod
        rw [toBlocks_eq, if_neg hnil]
        constructor
        · rw [List.flatten_cons, ih1]
          exact List.take_append_drop 16 l
        · intro b hb
          rcases List.mem_cons.mp hb with hb | hb
          · subst hb; rw [List.length_take]; omega
          · exact ih2 b hb

theorem flatten_toBlocks (l : Bytes) (h : l.length % 16 = 0) :
    (toBlocks l).flatten = l :=
  (flatten_toBlocks_aux l.length l le_rfl h).1

theorem toBlocks_block_length (l : Bytes) (h : l.length % 16 = 0) :
    ∀ b ∈ toBlocks l, b.length = 16 :=
  (flatten_toBlocks_aux l.length l le_rfl h).2

/-- CBC encryption over a block list: `C_i = E(P_i XOR C_(i-1))`, `C_0 = IV`. -/
def cbcEncryptBlocks (encB : Bytes → Bytes) (iv : Bytes) : List Bytes → List Bytes
  | [] => []
  | p :: ps =>
      let c := encB (xorBytes iv p)
      c :: cbcEncryptBlocks encB c ps

/-- CBC decryption over a block list: `P_i = D(C_i) XOR C_(i-1)`. -/
def cbcDecryptBlocks (decB : Bytes → Bytes) (iv : Bytes) : List Bytes → List Bytes
  | [] => []
  | c :: cs => xorBytes iv (decB c) :: cbcDecryptBlocks decB c cs

/-- Block-cipher contract (Go `aes.NewCipher(key)` result): encryption of a
16-byte block is a 16-byte block of genuine bytes, inverted by decryption. -/
def blockCipherInverts (encB decB : Bytes → Bytes) : Prop :=
  ∀ b : Bytes, b.length = 16 → validBytes b →
    (encB b).length = 16 ∧ validBytes (encB b) ∧ decB (encB b) = b

theorem cbcEncryptBlocks_length {encB decB : Bytes → Bytes}
    (hc : blockCipherInverts encB decB) :
    ∀ (ps : List Bytes) (iv : Bytes), iv.length = 16 → validBytes iv →
      (∀ p ∈ ps, p.length = 16 ∧ validBytes p) →
      ∀ c ∈ cbcEncryptBlocks encB iv ps, c.length = 16 ∧ validBytes c := by
  intro ps
  induction ps with
  | nil => intro iv _ _ _ c hc; simp [cbcEncryptBlocks] at hc
  | cons p ps ih =>
      intro iv hiv hivV hps c hmem
      have hxlen : (xorBytes iv p).length = 16 := by
        rw [xorBytes_length, hiv, (hps p (by simp)).1]; simp
      have hxval : validBytes (xorBytes iv p) := xorBytes_valid hivV (hps p (by simp)).2
      obtain ⟨hel, hev, _⟩ := hc _ hxlen hxval
      rcases List.mem_cons.mp hmem with hc1 | hc1
      · subst hc1; exact ⟨hel, hev⟩
      · exact ih (encB (xorBytes iv p)) hel hev (fun q hq => hps q (by simp [hq])) c hc1

theorem cbcDecrypt_cbcEncrypt {encB decB : Bytes → Bytes}
    (hc : blockCipherInverts encB decB) :
    ∀ (ps : List Bytes) (iv : Bytes), iv.length = 16 → validBytes iv →
      (∀ p ∈ ps, p.length = 16 ∧ validBytes p) →
      cbcDecryptBlocks decB iv (cbcEncryptBlocks encB iv ps) = ps := by
  intro ps
  induction ps with
  | nil => intro iv _ _ _; simp [cbcEncryptBlocks, cbcDecryptBlocks]
  | cons p ps ih =>
      intro iv hiv hivV hps
      have hplen : p.length = 16 := (hps p (by simp)).1
      have hxlen : (xorBytes iv p).length = 16 := by
        rw [xorBytes_length, hiv, hplen]; simp
      have hxval : validBytes (xorBytes iv p) := xorBytes_valid hivV (hps p (by simp)).2
      obtain ⟨hel, hev, hinv⟩ := hc _ hxlen hxval
      simp only [cbcEncryptBlocks, cbcDecryptBlocks, List.cons.injEq]
      constructor
      · rw [hinv]
        exact xorBytes_self_cancel iv p (by rw [hiv, hplen])
      · exact ih _ hel hev (fun q hq => hps q (by simp [hq]))

/-! ## Go results and error taxonomy -/

/-- The distinct error conditions returned by the layer (messages elided). -/
inductive CryptoErr
  | invalidEncryptedData
  | typeNotANumber
  | invalidAlgorithmType
  | base64DecodeError
  | encryptedDataTooShort
  | gcmOpenError
  | newCipherError
  | emptyKey
  | unsupportedKeyType
  | unsupportedMethod
  | notFoundKeyImporter
  | unsupportedAlgorithm
  | invalidSignatureData
  | invalidVersion
  | parseError
  deriving DecidableEq

/-- Outcome of a Go call: a returned value, a returned error, or a runtime
panic (out-of-range slice, `CryptBlocks` on partial blocks, explicit
`panic(...)`). -/
inductive GoResult (α : Type)
  | ok (a : α)
  | err (e : CryptoErr)
  | panicked
  deriving DecidableEq

/-! ## Algorithm registry (src/algorithm.go) -/

/-- Go `type Algorithm int`. -/
abbrev Algorithm := Int

def HmacSha256 : Algorithm := 101
def HmacSha512 : Algorithm := 102
def AesCbc128 : Algorithm := 201
def AesCbc192 : Algorithm := 202
def AesCbc256 : Algorithm := 203
def AesGcm128 : Algorithm := 204
def AesGcm192 : Algorithm := 205
def AesGcm256 : Algorithm := 206
def EcdsaP256 : Algorithm := 301
def EcdsaP384 : Algorithm := 302
def Rsa1024 : Algorithm := 303
def Rsa2048 : Algorithm := 304
def Rsa4096 : Algorithm := 305

/-- Go `GetTypeByAlgorithm`: the canonical identifier string, or the empty
string when the algorithm is not in the registry map. -/
def GetTypeByAlgorithm (a : Algorithm) : String :=
  if a = HmacSha256 then "HMAC_SHA256"
  else if a = HmacSha512 then "HMAC_SHA512"
  else if a = AesCbc128 then "AES_CBC_128"
  else if a = AesCbc192 then "AES_CBC_192"
  else if a = AesCbc256 then "AES_CBC_256"
  else if a = AesGcm128 then "AES_GCM_128"
  else if a = AesGcm192 then "AES_GCM_192"
  else if a = AesGcm256 then "AES_GCM_256"
  else if a = EcdsaP256 then "ECDSA_P256"
  else if a = EcdsaP384 then "ECDSA_P384"
  else if a = Rsa1024 then "RSA_1024"
  else if a = Rsa2048 then "RSA_2048"
  else if a = Rsa4096 then "RSA_4096"
  else ""

/-- Go `GetAlgorithmByType`: inverse lookup, zero value when unknown. -/
def GetAlgorithmByType (t : String) : Algorithm :=
  if t = "HMAC_SHA256" then HmacSha256
  else if t = "HMAC_SHA512" then HmacSha512
  else if t = "AES_CBC_128" then AesCbc128
  else if t = "AES_CBC_192" then AesCbc192
  else if t = "AES_CBC_256" then AesCbc256
  else if t = "AES_GCM_128" then AesGcm128
  else if t = "AES_GCM_192" then AesGcm192
  else if t = "AES_GCM_256" then AesGcm256
  else if t = "ECDSA_P256" then EcdsaP256
  else if t = "ECDSA_P384" then EcdsaP384
  else if t = "RSA_1024" then Rsa1024
  else if t = "RSA_2048" then Rsa2048
  else if t = "RSA_4096" then Rsa4096
  else 0

/-! ## Shared utilities (utils source file) -/

/-- The `interface{}` raw key material accepted by `checkAndConvertKey`:
a byte slice, a string (carried as its UTF-8 bytes), or any other type. -/
inductive RawKey
  | bytes (b : Bytes)
  | str (s : Bytes)
  | other

/-- Go `checkAndConvertKey`: rejects empty material and unsupported types. -/
def checkAndConvertKey : RawKey → GoResult Bytes
  | .bytes b => if b = [] then .err .emptyKey else .ok b
  | .str s => if s = [] then .err .emptyKey else .ok s
  | .other => .err .unsupportedKeyType

/-- Go `pkcs7Padding(src, blockSize)`; `byte(...)` truncates mod 256. -/
def pkcs7Padding (src : Bytes) (blockSize : Nat) : Bytes :=
  let padding := blockSize - src.length % blockSize
  let paddingText :=
    if padding = 0 then List.replicate blockSize (blockSize % 256)
    else List.replicate padding (padding % 256)
  src ++ paddingText

/-- Go `pkcs7UnPadding(src)`: reads the last byte as the pad length and slices it
off with no validation; Go panics when the buffer is empty (index out of
range) or when the pad length exceeds the buffer length (negative slice
bound). -/
def pkcs7UnPadding (src : Bytes) : GoResult Bytes :=
  match src.getLast? with
  | none => .panicked
  | some u => if u ≤ src.length then .ok (src.take (src.length - u)) else .panicked

/-! ## AES-CBC and AES-GCM keys (src/aes.go)

The block cipher obtained from `aes.NewCipher(key)` is passed in as
`aesEncB`/`aesDecB : Bytes → Bytes → Bytes` (key, block ↦ block), and the
AEAD obtained from `cipher.NewGCM` as `gcmSeal`/`gcmOpen`; `aes.NewCipher`
itself errors unless the key is 16, 24 or 32 bytes.  The IV or nonce drawn
by the secure random source during `Encrypt` is passed in explicitly. -/

/-- Go `aes.NewCipher` succeeds only on 16/24/32-byte keys. -/
def validAesKeySize (key : Bytes) : Prop :=
  key.length = 16 ∨ key.length = 24 ∨ key.length = 32

instance (key : Bytes) : Decidable (validAesKeySize key) := by
  unfold validAesKeySize; infer_instance

structure AesCbcKeyImpl where
  key : Bytes
  algorithm : Algorithm
  deriving DecidableEq

structure AesGcmKeyImpl where
  key : Bytes
  algorithm : Algorithm
  deriving DecidableEq

/-- Go `aesCbcKeyImpl.Encrypt`: PKCS#7-pad, CBC-encrypt under a fresh IV, and
wrap `iv || ciphertext` in the `<id>.<base64>` envelope. -/
def aesCbcEncrypt (aesEncB : Bytes → Bytes → Bytes) (k : AesCbcKeyImpl)
    (iv plaintext : Bytes) : GoResult Bytes :=
  let paddedText := pkcs7Padding plaintext 16
  if ¬ validAesKeySize k.key then .err .newCipherError
  else if iv.length ≠ 16 then .panicked
  else if paddedText.length % 16 ≠ 0 then .panicked
  else
    let dst := (cbcEncryptBlocks (aesEncB k.key) iv (toBlocks paddedText)).flatten
    .ok (intRender k.algorithm ++ 46 :: b64Encode (iv ++ dst))

/-- Go `aesCbcKeyImpl.Decrypt`: envelope parse, algorithm check, base64 decode,
IV split (Go slices `ciphertextBytes[0:16]` without a length check), CBC
decrypt, PKCS#7 strip. -/
def aesCbcDecrypt (aesDecB : Bytes → Bytes → Bytes) (k : AesCbcKeyImpl)
    (ciphertext : Bytes) : GoResult Bytes :=
  match splitOnce 46 ciphertext with
  | none => .err .invalidEncryptedData
  | some (p0, p1) =>
    match goAtoi p0 with
    | none => .err .typeNotANumber
    | some typ =>
      if typ ≠ k.algorithm then .err .invalidAlgorithmType
      else match b64Decode p1 with
        | none => .err .base64DecodeError
        | some ctBytes =>
          if ctBytes.length < 16 then .panicked
          else
            let iv := ctBytes.take 16
            let src := ctBytes.drop 16
            if ¬ validAesKeySize k.key then .err .newCipherError
            else if src.length % 16 ≠ 0 then .panicked
            else pkcs7UnPadding ((cbcDecryptBlocks (aesDecB k.key) iv (toBlocks src)).flatten)

/-- Go `aesGcmKeyImpl.Encrypt`: seal with a fresh 12-byte nonce and wrap
`nonce || sealed` in the envelope. -/
def aesGcmEncrypt (gcmSeal : Bytes → Bytes → Bytes → Bytes) (k : AesGcmKeyImpl)
    (nonce plaintext : Bytes) : GoResult Bytes :=
  if ¬ validAesKeySize k.key then .err .newCipherError
  else if nonce.length ≠ 12 then .panicked
  else .ok (intRender k.algorithm ++ 46 :: b64Encode (nonce ++ gcmSeal k.key nonce plaintext))

/-- Go `aesGcmKeyImpl.Decrypt`: envelope parse, algorithm check, base64 decode,
explicit length check, nonce split, `gcm.Open`. -/
def aesGcmDecrypt (gcmOpen : Bytes → Bytes → Bytes → Option Bytes) (k : AesGcmKeyImpl)
    (ciphertext : Bytes) : GoResult Bytes :=
  match splitOnce 46 ciphertext with
  | none => .err .invalidEncryptedData
  | some (p0, p1) =>
    match goAtoi p0 with
    | none => .err .typeNotANumber
    | some typ =>
      if typ ≠ k.algorithm then .err .invalidAlgorithmType
      else match b64Decode p1 with
        | none => .err .base64DecodeError
        | some encryptedData =>
          if ¬ validAesKeySize k.key then .err .newCipherError
          else if encryptedData.length < 12 then .err .encryptedDataTooShort
          else
            match gcmOpen k.key (encryptedData.take 12) (encryptedData.drop 12) with
            | none => .err .gcmOpenError
            | some pt => .ok pt

/-- Go `aesKeyImportImpl.KeyImport` result: one of the two concrete key types. -/
inductive AesKey
  | cbc (k : AesCbcKeyImpl)
  | gcm (k : AesGcmKeyImpl)
  deriving DecidableEq

/-- Go `aesKeyImportImpl.KeyImport` given the PBKDF2 primitive
(`pbkdf2.Key(password, salt, iterations, keyLen, sha256.New)`).  Material of
the wrong length is stretched with `pbkdf2.Key(key, key, 1000, keyLen, ...)`. -/
def aesKeyImport (pbkdf2Key : Bytes → Bytes → Nat → Nat → Bytes)
    (raw : RawKey) (alg : Algorithm) : GoResult AesKey :=
  match checkAndConvertKey raw with
  | .err e => .err e
  | .panicked => .panicked
  | .ok key =>
    if alg = AesCbc128 ∨ alg = AesGcm128 then
      aesKeyImportTail pbkdf2Key key alg 16
    else if alg = AesCbc192 ∨ alg = AesGcm192 then
      aesKeyImportTail pbkdf2Key key alg 24
    else if alg = AesCbc256 ∨ alg = AesGcm256 then
      aesKeyImportTail pbkdf2Key key alg 32
    else .panicked
where
  /-- the tail of `KeyImport` after the key-length switch. -/
  aesKeyImportTail (pbkdf2Key : Bytes → Bytes → Nat → Nat → Bytes)
      (key : Bytes) (alg : Algorithm) (keyLen : Nat) : GoResult AesKey :=
    let key2 := if key.length ≠ keyLen then pbkdf2Key key key 1000 keyLen else key
    if alg = AesCbc128 ∨ alg = AesCbc192 ∨ alg = AesCbc256 then
      .ok (.cbc ⟨key2, alg⟩)
    else if alg = AesGcm128 ∨ alg = AesGcm192 ∨ alg = AesGcm256 then
      .ok (.gcm ⟨key2, alg⟩)
    else .err .unsupportedAlgorithm

/-! ## HMAC-SHA keys (src/hmac_sha.go) -/

structure HmacShaKeyImpl where
  key : Bytes
  algorithm : Algorithm
  deriving DecidableEq

/-- Go `bytes.Equal` together with its short-circuit cost: the number of
byte comparisons performed (lengths are compared first at no byte cost, and
the scan stops at the first mismatch) and the boolean outcome. -/
def bytesEqualSteps : Bytes → Bytes → Nat × Bool
  | [], [] => (0, true)
  | a :: s, b :: t =>
      if a = b then ((bytesEqualSteps s t).1 + 1, (bytesEqualSteps s t).2)
      else (1, false)
  | _, _ => (0, false)

/-- Go `bytes.Equal`: the boolean outcome of the short-circuit comparison. -/
def bytesEqual (a b : Bytes) : Bool :=
  if a.length ≠ b.length then false else (bytesEqualSteps a b).2

/-- Go `crypto/subtle.ConstantTimeCompare` with its cost: when lengths match
it examines every byte, so the cost is the full length regardless of
content. -/
def constantTimeCompareSteps (a b : Bytes) : Nat × Bool :=
  if a.length ≠ b.length then (0, false) else (a.length, decide (a = b))

/-- Go `hmacShaKeyImpl.Sign` given the two HMAC primitives
(`hmac.New(sha256.New, key)` / `hmac.New(sha512.New, key)`); any other
algorithm value is rejected before hashing. -/
def hmacSign (hmac256 hmac512 : Bytes → Bytes → Bytes) (k : HmacShaKeyImpl)
    (msg : Bytes) : GoResult Bytes :=
  if k.algorithm = HmacSha256 then
    .ok (intRender k.algorithm ++ 46 :: b64Encode (hmac256 k.key msg))
  else if k.algorithm = HmacSha512 then
    .ok (intRender k.algorithm ++ 46 :: b64Encode (hmac512 k.key msg))
  else .err .unsupportedAlgorithm

/-- Go `hmacShaKeyImpl.Verify`: recompute `Sign(msg)` and compare the whole
envelopes with `bytes.Equal`. -/
def hmacVerify (hmac256 hmac512 : Bytes → Bytes → Bytes) (k : HmacShaKeyImpl)
    (msg digest : Bytes) : Bool :=
  match hmacSign hmac256 hmac512 k msg with
  | .ok newDigest => bytesEqual newDigest digest
  | _ => false

/-- The number of byte comparisons the `bytes.Equal` call inside
`hmacShaKeyImpl.Verify` performs (0 when signing fails first). -/
def hmacVerifySteps (hmac256 hmac512 : Bytes → Bytes → Bytes) (k : HmacShaKeyImpl)
    (msg digest : Bytes) : Nat :=
  match hmacSign hmac256 hmac512 k msg with
  | .ok newDigest => if newDigest.length ≠ digest.length then 0 else (bytesEqualSteps newDigest digest).1
  | _ => 0

/-- Go `hmacShaKeyImportImpl.KeyImport`. -/
def hmacShaKeyImport (raw : RawKey) (alg : Algorithm) : GoResult HmacShaKeyImpl :=
  match checkAndConvertKey raw with
  | .err e => .err e
  | .panicked => .panicked
  | .ok key =>
      if alg = HmacSha256 ∨ alg = HmacSha512 then .ok ⟨key, alg⟩
      else .err .unsupportedAlgorithm

/-! ## Key import dispatch (src/crypto.go) -/

inductive AnyKey
  | hmacSha (k : HmacShaKeyImpl)
  | aes (k : AesKey)
  deriving DecidableEq

/-- Top-level `KeyImport`: dispatches on the algorithm family; any other
algorithm yields the "not found key importer" error. -/
def KeyImport (pbkdf2Key : Bytes → Bytes → Nat → Nat → Bytes)
    (raw : RawKey) (alg : Algorithm) : GoResult AnyKey :=
  if alg = HmacSha256 ∨ alg = HmacSha512 then
    match hmacShaKeyImport raw alg with
    | .ok k => .ok (.hmacSha k)
    | .err e => .err e
    | .panicked => .panicked
  else if alg = AesCbc128 ∨ alg = AesCbc192 ∨ alg = AesCbc256 ∨
      alg = AesGcm128 ∨ alg = AesGcm192 ∨ alg = AesGcm256 then
    match aesKeyImport pbkdf2Key raw alg with
    | .ok k => .ok (.aes k)
    | .err e => .err e
    | .panicked => .panicked
  else .err .notFoundKeyImporter

/-! ## ECDSA keys (src/ecdsa.go)

The elliptic-curve primitives (`privateKey.Sign`, `ecdsa.VerifyASN1`, public
point derivation) are external; the signature bytes produced by the
randomised signing call are passed in explicitly. -/

structure EcdsaPrivateKey where
  privateKey : Bytes
  algorithm : Algorithm
  deriving DecidableEq

structure EcdsaPublicKey where
  publicKey : Bytes
  algorithm : Algorithm
  deriving DecidableEq

/-- Go `ecdsaPrivateKey.PublicKey`: the Go composite literal
`&ecdsaPublicKey{publicKey: ...}` omits `algorithm`, so the derived key
carries the zero value 0. -/
def ecdsaPrivateKeyPublicKey (derivePub : Bytes → Bytes) (k : EcdsaPrivateKey) :
    EcdsaPublicKey :=
  { publicKey := derivePub k.privateKey, algorithm := 0 }

/-- Go `ecdsaPublicKey.AlgorithmType`. -/
def ecdsaPublicKeyAlgorithmType (k : EcdsaPublicKey) : String :=
  GetTypeByAlgorithm k.algorithm

/-- Go `ecdsaPrivateKey.Sign` given the ASN.1 signature bytes `sigBytes`
produced by the randomised ECDSA primitive for this message. -/
def ecdsaSign (k : EcdsaPrivateKey) (sigBytes : Bytes) : GoResult Bytes :=
  .ok (intRender k.algorithm ++ 46 :: b64Encode sigBytes)

/-- Go `ecdsaPublicKey.Verify`, faithfully: the envelope is parsed from the
`msg` argument (not from `digest`), and the unparsed `msg` and `digest`
byte strings are handed to `ecdsa.VerifyASN1` as hash and signature. -/
def ecdsaVerify (verifyASN1 : Bytes → Bytes → Bytes → Bool) (k : EcdsaPublicKey)
    (msg digest : Bytes) : Bool :=
  match splitOnce 46 msg with
  | none => false
  | some (p0, _) =>
    match goAtoi p0 with
    | none => false
    | some typ =>
      if typ ≠ k.algorithm then false
      else verifyASN1 k.publicKey msg digest

/-! ## Argon2 password-hash keys (argon2 package)

`types.Algorithm` is a string in this package; the memory-hard primitives
`argon2.Key` and `argon2.IDKey` are external parameters
(password, salt, time, memory, threads, keyLen ↦ digest). -/

structure Argon2KeyImpl where
  algorithm : Bytes
  method : Bytes
  saltSize : Nat
  time : Nat
  memory : Nat
  threads : Nat
  length : Nat
  deriving DecidableEq

/-- ASCII "argon2i". -/
def methodArgon2i : Bytes := [97, 114, 103, 111, 110, 50, 105]

/-- ASCII "argon2id". -/
def methodArgon2id : Bytes := [97, 114, 103, 111, 110, 50, 105, 100]

/-- Go `argon2.Version` (0x13). -/
def argon2Version : Nat := 19

/-- Go `KeyGeneratorImpl.KeyGen` defaults before options are applied. -/
def argon2KeyGen (alg : Bytes) : Argon2KeyImpl :=
  ⟨alg, methodArgon2id, 16, 1, 64 * 1024, 4, 32⟩

/-- Go `WithLength`: zero is a documented no-op. -/
def withLength (l : Nat) (k : Argon2KeyImpl) : Argon2KeyImpl :=
  if l = 0 then k else { k with length := l }

/-- Go `WithTime`: zero is a no-op. -/
def withTime (t : Nat) (k : Argon2KeyImpl) : Argon2KeyImpl :=
  if t = 0 then k else { k with time := t }

/-- Go `WithMemory`: zero is a no-op. -/
def withMemory (m : Nat) (k : Argon2KeyImpl) : Argon2KeyImpl :=
  if m = 0 then k else { k with memory := m }

/-- The `m=<memory>,t=<time>,p=<threads>` parameter field. -/
def argon2Params (memory time threads : Nat) : Bytes :=
  [109, 61] ++ natRender memory ++ [44, 116, 61] ++ natRender time ++
    [44, 112, 61] ++ natRender threads

/-- Go `KeyImpl.Sign` given the salt drawn by the random source: derive the
digest with the key's current parameters and serialize the extended
envelope `<alg>.<method>$v=<ver>$m=..,t=..,p=..$<salt64>$<digest64>`. -/
def argon2Sign (argonKey argonIDKey : Bytes → Bytes → Nat → Nat → Nat → Nat → Bytes)
    (k : Argon2KeyImpl) (salt msg : Bytes) : GoResult Bytes :=
  let digest :=
    if k.method = methodArgon2i then argonKey msg salt k.time k.memory k.threads k.length
    else argonIDKey msg salt k.time k.memory k.threads k.length
  let payload := k.method ++ 36 :: ([118, 61] ++ natRender argon2Version) ++
    36 :: argon2Params k.memory k.time k.threads ++
    36 :: b64RawEncode salt ++ 36 :: b64RawEncode digest
  .ok (k.algorithm ++ 46 :: payload)

/-- Maximal run of decimal digits, with accumulator (`fmt.Sscanf` "%d"). -/
def digitRun : Bytes → Nat → Nat × Bytes
  | [], acc => (acc, [])
  | c :: s, acc =>
      if 48 ≤ c ∧ c ≤ 57 then digitRun s (acc * 10 + (c - 48)) else (acc, c :: s)

/-- A "%d" scan: requires at least one digit and consumes the maximal run. -/
def scanNum : Bytes → Option (Nat × Bytes)
  | [] => none
  | c :: s => if 48 ≤ c ∧ c ≤ 57 then some (digitRun (c :: s) 0) else none

/-- Go `fmt.Sscanf(version, "v=%d", &v)`. -/
def scanVersion (s : Bytes) : Option Nat :=
  match s with
  | 118 :: 61 :: rest =>
      match scanNum rest with
      | some (v, _) => some v
      | none => none
  | _ => none

/-- Go `fmt.Sscanf(params, "m=%d,t=%d,p=%d", &memory, &time, &threads)`. -/
def scanParams (s : Bytes) : Option (Nat × Nat × Nat) :=
  match s with
  | 109 :: 61 :: rest =>
    match scanNum rest with
    | some (m, 44 :: 116 :: 61 :: rest1) =>
      match scanNum rest1 with
      | some (t, 44 :: 112 :: 61 :: rest2) =>
        match scanNum rest2 with
        | some (p, _) => some (m, t, p)
        | none => none
      | _ => none
    | _ => none
  | _ => none

/-- Go `KeyImpl.Verify`: parse the envelope, check the algorithm string, parse
the five `$`-fields, recompute the digest using the parsed salt, time,
memory and threads — but the key's *current* `length` — and compare with
`hmac.Equal`. -/
def argon2Verify (argonKey argonIDKey : Bytes → Bytes → Nat → Nat → Nat → Nat → Bytes)
    (k : Argon2KeyImpl) (msg signature : Bytes) : GoResult Bool :=
  match splitOnce 46 signature with
  | none => .err .invalidSignatureData
  | some (algorithm, encodedSignature) =>
    if algorithm ≠ k.algorithm then .err .invalidAlgorithmType
    else
      match splitSepN 36 5 encodedSignature with
      | [method, version, params, salt, digest] =>
        match scanVersion version with
        | none => .err .parseError
        | some v =>
          if v ≠ argon2Version then .err .invalidVersion
          else match scanParams params with
          | none => .err .parseError
          | some (memory, time, threads) =>
            match b64RawDecode salt with
            | none => .err .base64DecodeError
            | some saltBytes =>
              match b64RawDecode digest with
              | none => .err .base64DecodeError
              | some providedDigest =>
                let computedDigest :=
                  if method = methodArgon2i then
                    argonKey msg saltBytes time memory threads k.length
                  else argonIDKey msg saltBytes time memory threads k.length
                .ok (decide (providedDigest = computedDigest))
      | _ => .err .invalidSignatureData

/-! ## Supporting lemmas -/

theorem splitOnce_none {sep : Nat} : ∀ {s : Bytes}, sep ∉ s → splitOnce sep s = none := by
  intro s
  induction s with
  | nil => intro _; rfl
  | cons c rest ih =>
      intro h
      have hc : ¬ c = sep := fun hcs => h (by simp [hcs])
      rw [splitOnce, if_neg hc, ih (fun hm => h (List.mem_cons_of_mem _ hm))]
      rfl

theorem bytesEqualSteps_snd_iff : ∀ (a b : Bytes), (bytesEqualSteps a b).2 = true ↔ a = b := by
  intro a
  induction a with
  | nil =>
      intro b
      cases b with
      | nil => simp [bytesEqualSteps]
      | cons y t => simp [bytesEqualSteps]
  | cons x s ih =>
      intro b
      cases b with
      | nil => simp [bytesEqualSteps]
      | cons y t =>
          by_cases hxy : x = y
          · rw [bytesEqualSteps, if_pos hxy]
            simp [hxy, ih t]
          · rw [bytesEqualSteps, if_neg hxy]
            simp [hxy]

theorem bytesEqual_iff (a b : Bytes) : bytesEqual a b = true ↔ a = b := by
  rw [bytesEqual]
  by_cases h : a.length ≠ b.length
  · rw [if_pos h]
    constructor
    · intro hf; exact absurd hf (by simp)
    · intro hab; exact absurd (congrArg List.length hab) h
  · rw [if_neg h]
    exact bytesEqualSteps_snd_iff a b

theorem pkcs7Padding_mod (pt : Bytes) : (pkcs7Padding pt 16).length % 16 = 0 := by
  rw [pkcs7Padding]
  have hlt : pt.length % 16 < 16 := Nat.mod_lt _ (by omega)
  have hne : 16 - pt.length % 16 ≠ 0 := by omega
  simp only [if_neg hne, List.length_append, List.length_replicate]
  omega

theorem pkcs7Padding_valid {pt : Bytes} (h : validBytes pt) :
    validBytes (pkcs7Padding pt 16) := by
  rw [pkcs7Padding]
  intro x hx
  have hlt : pt.length % 16 < 16 := Nat.mod_lt _ (by omega)
  have hne : 16 - pt.length % 16 ≠ 0 := by omega
  rw [if_neg hne] at hx
  rcases List.mem_append.mp hx with hx | hx
  · exact h x hx
  · have := List.eq_of_mem_replicate hx
    omega

theorem pkcs7UnPadding_pkcs7Padding (pt : Bytes) :
    pkcs7UnPadding (pkcs7Padding pt 16) = .ok pt := by
  rw [pkcs7Padding, pkcs7UnPadding]
  have hlt : pt.length % 16 < 16 := Nat.mod_lt _ (by omega)
  have hne : 16 - pt.length % 16 ≠ 0 := by omega
  rw [if_neg hne]
  set p := 16 - pt.length % 16 with hp
  have hmod : p % 256 = p := Nat.mod_eq_of_lt (by omega)
  obtain ⟨m, hm⟩ : ∃ m, p = m + 1 := ⟨p - 1, by omega⟩
  have hrep : (List.replicate p (p % 256)) ≠ [] := by
    rw [hm]; simp [List.replicate_succ]
  rw [List.getLast?_append_of_ne_nil _ hrep]
  rw [hm, List.replicate_succ', List.getLast?_concat]
  rw [← List.replicate_succ', ← hm]
  rw [hmod]
  have hlen : (pt ++ List.replicate p p).length = pt.length + p := by simp
  show (if p ≤ (pt ++ List.replicate p p).length then
      GoResult.ok ((pt ++ List.replicate p p).take ((pt ++ List.replicate p p).length - p))
    else GoResult.panicked) = GoResult.ok pt
  rw [if_pos (by rw [hlen]; omega)]
  rw [hlen, show pt.length + p - p = pt.length from by omega]
  rw [List.take_left]

theorem flatten_all16_mod :
    ∀ (bs : List Bytes), (∀ b ∈ bs, b.length = 16) → bs.flatten.length % 16 = 0 := by
  intro bs
  induction bs with
  | nil => intro _; simp
  | cons b rest ih =>
      intro h
      rw [List.flatten_cons, List.length_append, h b (by simp)]
      have := ih (fun x hx => h x (by simp [hx]))
      omega

theorem flatten_valid :
    ∀ (bs : List Bytes), (∀ b ∈ bs, validBytes b) → validBytes bs.flatten := by
  intro bs
  induction bs with
  | nil => intro _ x hx; simp at hx
  | cons b rest ih =>
      intro h x hx
      rw [List.flatten_cons] at hx
      rcases List.mem_append.mp hx with hx | hx
      · exact h b (by simp) x hx
      · exact ih (fun y hy => h y (by simp [hy])) x hx

theorem digitRun_natRender (n : Nat) :
    ∀ (acc : Nat) (t : Bytes),
      digitRun (natRender n ++ t) acc = digitRun t (acc * 10 ^ (natRender n).length + n) := by
  induction n using Nat.strong_induction_on with
  | _ n ih =>
      intro acc t
      rw [natRender_eq]
      by_cases h : n < 10
      · rw [if_pos h]
        simp only [List.cons_append, List.nil_append, digitRun,
          if_pos (by omega : 48 ≤ 48 + n ∧ 48 + n ≤ 57)]
        simp only [List.length_cons, List.length_nil]
        norm_num
      · rw [if_neg h]
        rw [List.append_assoc]
        rw [ih (n / 10) (Nat.div_lt_self (by omega) (by omega))]
        simp only [List.cons_append, List.nil_append, digitRun,
          if_pos (by omega : 48 ≤ 48 + n % 10 ∧ 48 + n % 10 ≤ 57)]
        simp only [List.length_append, List.length_cons, List.length_nil]
        rw [pow_succ]
        congr 1
        have h48 : 48 + n % 10 - 48 = n % 10 := by omega
        rw [h48]
        have key : (acc * 10 ^ (natRender (n / 10)).length + n / 10) * 10 + n % 10 =
            acc * (10 ^ (natRender (n / 10)).length * 10) + (n / 10 * 10 + n % 10) := by ring
        rw [key, show n / 10 * 10 + n % 10 = n from by omega]

/-- A "%d" scan of a rendered number followed by a non-digit (or nothing)
consumes exactly the rendered digits. -/
theorem scanNum_natRender (n : Nat) (t : Bytes)
    (ht : t = [] ∨ ∃ c s, t = c :: s ∧ ¬ (48 ≤ c ∧ c ≤ 57)) :
    scanNum (natRender n ++ t) = some (n, t) := by
  obtain ⟨c, cs, hcs⟩ : ∃ c cs, natRender n = c :: cs := by
    cases hn : natRender n with
    | nil => exact absurd hn (natRender_ne_nil _)
    | cons c cs => exact ⟨c, cs, rfl⟩
  have hc : 48 ≤ c ∧ c ≤ 57 := natRender_mem n c (by rw [hcs]; simp)
  have hrun : digitRun (natRender n ++ t) 0 = (n, t) := by
    rw [digitRun_natRender]
    rcases ht with ht | ⟨d, ds, hds, hd⟩
    · subst ht; simp [digitRun]
    · subst hds
      rw [digitRun, if_neg hd]
      simp
  rw [hcs] at hrun ⊢
  rw [List.cons_append, scanNum, if_pos hc, ← List.cons_append, hrun]

theorem natRender_no_36 (n : Nat) : 36 ∉ natRender n := fun h => by
  have := natRender_mem n 36 h; omega

theorem argon2Params_no_36 (memory time threads : Nat) :
    36 ∉ argon2Params memory time threads := by
  intro h
  simp only [argon2Params, List.mem_append, List.mem_cons, List.not_mem_nil, or_false] at h
  casesm* _ ∨ _ <;>
    first
    | omega
    | exact natRender_no_36 _ (by assumption)

theorem splitSepN_step (m : Nat) {A : Bytes} (hA : 36 ∉ A) (R : Bytes) :
    splitSepN 36 (m + 2) (A ++ 36 :: R) = A :: splitSepN 36 (m + 1) R := by
  simp only [splitSepN, splitOnce_append hA]

/-- Splitting the five-field argon2 payload recovers the fields when the
first four contain no separator. -/
theorem splitSepN_five {A B C D : Bytes} (E : Bytes)
    (hA : 36 ∉ A) (hB : 36 ∉ B) (hC : 36 ∉ C) (hD : 36 ∉ D) :
    splitSepN 36 5 (A ++ 36 :: (B ++ 36 :: (C ++ 36 :: (D ++ 36 :: E)))) =
      [A, B, C, D, E] := by
  have s1 := splitSepN_step 3 hA (B ++ 36 :: (C ++ 36 :: (D ++ 36 :: E)))
  have s2 := splitSepN_step 2 hB (C ++ 36 :: (D ++ 36 :: E))
  have s3 := splitSepN_step 1 hC (D ++ 36 :: E)
  have s4 := splitSepN_step 0 hD E
  norm_num at s1 s2 s3 s4
  rw [show (5 : Nat) = 3 + 2 from rfl, s1, s2, s3, s4]
  rfl

/-- Two wire envelopes agree only if their algorithm tags agree. -/
theorem envelope_tag_inj {a b : Algorithm} {x y : Bytes}
    (h : intRender a ++ 46 :: x = intRender b ++ 46 :: y) : a = b := by
  have ha := splitOnce_append (intRender_no_46 a) x
  have hb := splitOnce_append (intRender_no_46 b) y
  rw [h, hb] at ha
  have := Option.some.inj ha
  rw [Prod.mk.injEq] at this
  exact intRender_inj this.1.symm

/-! ## Claim theorems -/

/-- C10: for every ECDSA private key constructed for algorithm `alg`, the
public key returned by `PublicKey()` carries the zero-value algorithm field,
so its `AlgorithmType()` is the empty string rather than the canonical
identifier of `alg`. -/
theorem ecdsa_public_key_algorithm_zero (derivePub : Bytes → Bytes)
    (sk : Bytes) (alg : Algorithm) :
    (ecdsaPrivateKeyPublicKey derivePub ⟨sk, alg⟩).algorithm = 0 ∧
    ecdsaPublicKeyAlgorithmType (ecdsaPrivateKeyPublicKey derivePub ⟨sk, alg⟩) = "" := by
  constructor
  · rfl
  · show GetTypeByAlgorithm 0 = ""
    decide

/-- C2 (code bug): `hmacShaKeyImpl.Verify` does recompute the signature over
`msg`, but compares it to `digest` with `bytes.Equal` — ordinary
short-circuiting equality — not a constant-time comparison: on two forged
digests of equal length the comparison inspects 1 byte versus 8 bytes
depending on where the first mismatch lies, whereas
`subtle.ConstantTimeCompare` would inspect all 8 in both cases.  (The
genuine envelope for this stand-in HMAC is `101.AA==` =
`[49,48,49,46,65,65,61,61]`.) -/
theorem hmacVerify_uses_short_circuit_equality :
    hmacVerify (fun _ _ => [0]) (fun _ _ => [0]) ⟨[1], HmacSha256⟩ [104]
      [49, 48, 49, 46, 65, 65, 61, 61] = true ∧
    hmacVerifySteps (fun _ _ => [0]) (fun _ _ => [0]) ⟨[1], HmacSha256⟩ [104]
      [50, 48, 49, 46, 65, 65, 61, 61] = 1 ∧
    hmacVerifySteps (fun _ _ => [0]) (fun _ _ => [0]) ⟨[1], HmacSha256⟩ [104]
      [49, 48, 49, 46, 65, 65, 61, 50] = 8 ∧
    (constantTimeCompareSteps [49, 48, 49, 46, 65, 65, 61, 61]
      [50, 48, 49, 46, 65, 65, 61, 61]).1 =
    (constantTimeCompareSteps [49, 48, 49, 46, 65, 65, 61, 61]
      [49, 48, 49, 46, 65, 65, 61, 50]).1 := by
  decide

/-- C3 (code bug): `Decrypt` does read the last plaintext byte as the pad
length, but performs no validation.  A decrypted block ending in the
out-of-range pad byte 0 is returned unchanged with no `InvalidPadding`
error, and `pkcs7UnPadding` on a buffer whose last byte exceeds the buffer
length panics (negative slice bound) instead of returning an error. -/
theorem pkcs7_unpadding_not_validated :
    aesCbcDecrypt (fun _ b => b) ⟨List.replicate 16 0, AesCbc128⟩
      (intRender AesCbc128 ++ 46 :: b64Encode (List.replicate 16 0 ++ List.replicate 16 0)) =
      .ok (List.replicate 16 0) ∧
    pkcs7UnPadding (List.replicate 15 0 ++ [17]) = .panicked := by
  decide

/-- C9 (code bug): `aesCbcKeyImpl.Decrypt` of a well-formed `id.base64`
envelope whose decoded payload is shorter than one block panics
(`ciphertextBytes[0:16]` out of range) instead of returning an error; a
payload of exactly one block also panics (`pkcs7UnPadding` indexes into the
empty decrypted buffer). -/
theorem aesCbcDecrypt_short_payload_panics :
    aesCbcDecrypt (fun _ b => b) ⟨List.replicate 16 0, AesCbc128⟩
      (intRender AesCbc128 ++ 46 :: b64Encode [65]) = .panicked ∧
    aesCbcDecrypt (fun _ b => b) ⟨List.replicate 16 0, AesCbc128⟩
      (intRender AesCbc128 ++ 46 :: b64Encode (List.replicate 16 0)) = .panicked := by
  decide

/-- C6 counterexample: with a memory-hard primitive that (like Argon2)
returns a digest of the requested output length, `Verify(msg, Sign(msg))`
returns `false` — not `true` — after the key's configured output length is
changed from 32 to 16 via `WithLength`, because `Verify` recomputes with
the key's *current* length while the provided digest keeps the signing
length. -/
theorem argon2_verify_after_length_change_false :
    (match argon2Sign (fun _ _ _ _ _ l => List.replicate l 1)
        (fun _ _ _ _ _ l => List.replicate l 2) (argon2KeyGen [97]) [9, 8] [104, 105] with
     | .ok sig =>
        argon2Verify (fun _ _ _ _ _ l => List.replicate l 1)
          (fun _ _ _ _ _ l => List.replicate l 2)
          (withLength 16 (argon2KeyGen [97])) [104, 105] sig
     | _ => .panicked) = .ok false := by
  decide

/-- C8 counterexample: importing empty key material under an algorithm with
no registered importer (here ECDSA-P256) fails with the "not found key
importer" error, not with `EmptyKey`. -/
theorem keyImport_empty_unsupported_alg_error :
    KeyImport (fun _ _ _ _ => []) (.bytes []) EcdsaP256 = .err .notFoundKeyImporter ∧
    (GoResult.err CryptoErr.notFoundKeyImporter : GoResult AnyKey) ≠ .err .emptyKey := by
  decide

/-- C4 (code bug): `ecdsaPublicKey.Verify` decodes the envelope from the
`msg` argument, not from the `digest` argument.  For every message that
contains no '.' byte, `Verify(msg, Sign(msg))` on the public key returned
by `PublicKey()` is `false` no matter what the ECDSA primitive answers, so
the claimed sign/verify round trip fails. -/
theorem ecdsaVerify_sign_roundtrip_false
    (verifyASN1 : Bytes → Bytes → Bytes → Bool) (derivePub : Bytes → Bytes)
    (sk sigBytes msg env : Bytes) (alg : Algorithm)
    (hmsg : 46 ∉ msg)
    (_hsig : ecdsaSign ⟨sk, alg⟩ sigBytes = .ok env) :
    ecdsaVerify verifyASN1 (ecdsaPrivateKeyPublicKey derivePub ⟨sk, alg⟩) msg env = false := by
  rw [ecdsaVerify, splitOnce_none hmsg]

theorem ecdsaVerify_sign_roundtrip_false_witness :
    ecdsaVerify (fun _ _ _ => true) (ecdsaPrivateKeyPublicKey (fun x => x) ⟨[1], EcdsaP256⟩)
      [104, 105] (intRender EcdsaP256 ++ 46 :: b64Encode [2]) = false :=
  ecdsaVerify_sign_roundtrip_false (fun _ _ _ => true) (fun x => x) [1] [2] [104, 105]
    (intRender EcdsaP256 ++ 46 :: b64Encode [2]) EcdsaP256 (by decide) rfl

/-- Key bytes carried by an imported AES key. -/
def aesKeyBytes : AesKey → Bytes
  | .cbc k => k.key
  | .gcm k => k.key

/-- C7: for each AES variant with required length L ∈ {16, 24, 32} and every
non-empty raw material, `KeyImport` yields a key whose material is the raw
bytes when already of length L and otherwise
`pbkdf2.Key(raw, raw, 1000, L, sha256.New)` — salt = the material itself,
fixed iteration count — and (by PBKDF2's output-length contract) the
internal key has exactly L bytes.  String material behaves identically, and
derivation is a pure function of the material, hence deterministic. -/
theorem aes_key_import_stretches
    (pbkdf2Key : Bytes → Bytes → Nat → Nat → Bytes)
    (hlen : ∀ pwd salt iter l, (pbkdf2Key pwd salt iter l).length = l)
    (alg : Algorithm) (L : Nat)
    (hAL : alg = AesCbc128 ∧ L = 16 ∨ alg = AesCbc192 ∧ L = 24 ∨ alg = AesCbc256 ∧ L = 32 ∨
           alg = AesGcm128 ∧ L = 16 ∨ alg = AesGcm192 ∧ L = 24 ∨ alg = AesGcm256 ∧ L = 32)
    (raw : Bytes) (hraw : raw ≠ []) :
    aesKeyImport pbkdf2Key (.bytes raw) alg =
      .ok (if alg = AesCbc128 ∨ alg = AesCbc192 ∨ alg = AesCbc256
        then AesKey.cbc ⟨if raw.length ≠ L then pbkdf2Key raw raw 1000 L else raw, alg⟩
        else AesKey.gcm ⟨if raw.length ≠ L then pbkdf2Key raw raw 1000 L else raw, alg⟩) ∧
    (if raw.length ≠ L then pbkdf2Key raw raw 1000 L else raw).length = L ∧
    aesKeyImport pbkdf2Key (.str raw) alg = aesKeyImport pbkdf2Key (.bytes raw) alg := by
  refine ⟨?_, ?_, ?_⟩
  · rcases hAL with ⟨h1, h2⟩ | ⟨h1, h2⟩ | ⟨h1, h2⟩ | ⟨h1, h2⟩ | ⟨h1, h2⟩ | ⟨h1, h2⟩ <;>
      subst h1 <;> subst h2 <;>
      simp [aesKeyImport, aesKeyImport.aesKeyImportTail, checkAndConvertKey, if_neg hraw,
        AesCbc128, AesCbc192, AesCbc256, AesGcm128, AesGcm192, AesGcm256]
  · by_cases hr : raw.length = L
    · rw [if_neg (by omega)]
      exact hr
    · rw [if_pos hr]
      exact hlen raw raw 1000 L
  · simp [aesKeyImport, checkAndConvertKey, if_neg hraw]

theorem aes_key_import_stretches_witness :
    aesKeyImport (fun _ _ _ l => List.replicate l 9) (.bytes [49, 50, 51, 52, 53, 54]) AesCbc256 =
      .ok (.cbc ⟨List.replicate 32 9, AesCbc256⟩) :=
  (aes_key_import_stretches (fun _ _ _ l => List.replicate l 9)
    (fun _ _ _ l => List.length_replicate l 9) AesCbc256 32
    (Or.inr (Or.inr (Or.inl ⟨rfl, rfl⟩)))
    [49, 50, 51, 52, 53, 54] (by decide)).1.trans (by decide)

/-- C5: an envelope whose leading decimal tag renders an algorithm `a`,
decoded or verified under a key built for `b ≠ a`, is rejected with the
algorithm-mismatch error by `aesCbcKeyImpl.Decrypt`, `aesGcmKeyImpl.Decrypt`
and argon2 `Verify` (whose tags are strings), and makes HMAC `Verify`
return false; conversely CBC/GCM `Decrypt` succeed only when the envelope
tag parses to exactly the key's algorithm. -/
theorem envelope_algorithm_mismatch
    (aesDecB : Bytes → Bytes → Bytes) (gcmOpen : Bytes → Bytes → Bytes → Option Bytes)
    (hmac256 hmac512 : Bytes → Bytes → Bytes)
    (argonKey argonIDKey : Bytes → Bytes → Nat → Nat → Nat → Nat → Bytes)
    (key : Bytes) (a b : Algorithm) (hab : a ≠ b) (payload : Bytes)
    (ak : Argon2KeyImpl) (sa : Bytes) (hsa : 46 ∉ sa) (hsak : sa ≠ ak.algorithm)
    (rest msg : Bytes) :
    aesCbcDecrypt aesDecB ⟨key, b⟩ (intRender a ++ 46 :: payload) = .err .invalidAlgorithmType ∧
    aesGcmDecrypt gcmOpen ⟨key, b⟩ (intRender a ++ 46 :: payload) = .err .invalidAlgorithmType ∧
    hmacVerify hmac256 hmac512 ⟨key, b⟩ msg (intRender a ++ 46 :: payload) = false ∧
    argon2Verify argonKey argonIDKey ak msg (sa ++ 46 :: rest) = .err .invalidAlgorithmType ∧
    (∀ c pt, aesCbcDecrypt aesDecB ⟨key, b⟩ c = .ok pt →
      ∃ p q, splitOnce 46 c = some (p, q) ∧ goAtoi p = some b) ∧
    (∀ c pt, aesGcmDecrypt gcmOpen ⟨key, b⟩ c = .ok pt →
      ∃ p q, splitOnce 46 c = some (p, q) ∧ goAtoi p = some b) := by
  refine ⟨?_, ?_, ?_, ?_, ?_, ?_⟩
  · simp [aesCbcDecrypt, splitOnce_append (intRender_no_46 a), goAtoi_intRender, hab]
  · simp [aesGcmDecrypt, splitOnce_append (intRender_no_46 a), goAtoi_intRender, hab]
  · rw [hmacVerify]
    by_cases hb1 : b = HmacSha256
    · subst hb1
      rw [hmacSign, if_pos rfl]
      rw [show ((⟨key, HmacSha256⟩ : HmacShaKeyImpl).algorithm) = HmacSha256 from rfl]
      by_contra hcontra
      have htrue : bytesEqual (intRender HmacSha256 ++ 46 :: b64Encode (hmac256 key msg))
          (intRender a ++ 46 :: payload) = true := by
        cases hbe : bytesEqual (intRender HmacSha256 ++ 46 :: b64Encode (hmac256 key msg))
            (intRender a ++ 46 :: payload)
        · exact absurd hbe hcontra
        · rfl
      exact hab (envelope_tag_inj ((bytesEqual_iff _ _).mp htrue)).symm
    · by_cases hb2 : b = HmacSha512
      · subst hb2
        rw [hmacSign]
        rw [show ((⟨key, HmacSha512⟩ : HmacShaKeyImpl).algorithm) = HmacSha512 from rfl]
        rw [if_neg (by decide : ¬ HmacSha512 = HmacSha256), if_pos rfl]
        by_contra hcontra
        have htrue : bytesEqual (intRender HmacSha512 ++ 46 :: b64Encode (hmac512 key msg))
            (intRender a ++ 46 :: payload) = true := by
          cases hbe : bytesEqual (intRender HmacSha512 ++ 46 :: b64Encode (hmac512 key msg))
              (intRender a ++ 46 :: payload)
          · exact absurd hbe hcontra
          · rfl
        exact hab (envelope_tag_inj ((bytesEqual_iff _ _).mp htrue)).symm
      · rw [hmacSign]
        rw [show ((⟨key, b⟩ : HmacShaKeyImpl).algorithm) = b from rfl]
        rw [if_neg hb1, if_neg hb2]
  · simp [argon2Verify, splitOnce_append hsa, hsak]
  · intro c pt h
    cases hsp : splitOnce 46 c with
    | none => rw [aesCbcDecrypt, hsp] at h; exact GoResult.noConfusion h
    | some pq =>
        obtain ⟨p, q⟩ := pq
        cases hat : goAtoi p with
        | none => rw [aesCbcDecrypt, hsp] at h; simp only [hat] at h; exact GoResult.noConfusion h
        | some typ =>
            refine ⟨p, q, rfl, ?_⟩
            by_cases ht : typ = b
            · rw [ht] at hat; exact hat
            · exfalso
              rw [aesCbcDecrypt, hsp] at h
              simp only [hat] at h
              rw [if_pos (show typ ≠ (⟨key, b⟩ : AesCbcKeyImpl).algorithm from ht)] at h
              exact GoResult.noConfusion h
  · intro c pt h
    cases hsp : splitOnce 46 c with
    | none => rw [aesGcmDecrypt, hsp] at h; exact GoResult.noConfusion h
    | some pq =>
        obtain ⟨p, q⟩ := pq
        cases hat : goAtoi p with
        | none => rw [aesGcmDecrypt, hsp] at h; simp only [hat] at h; exact GoResult.noConfusion h
        | some typ =>
            refine ⟨p, q, rfl, ?_⟩
            by_cases ht : typ = b
            · rw [ht] at hat; exact hat
            · exfalso
              rw [aesGcmDecrypt, hsp] at h
              simp only [hat] at h
              rw [if_pos (show typ ≠ (⟨key, b⟩ : AesGcmKeyImpl).algorithm from ht)] at h
              exact GoResult.noConfusion h

theorem envelope_algorithm_mismatch_witness :
    aesCbcDecrypt (fun _ x => x) ⟨[], AesCbc128⟩ (intRender AesCbc192 ++ 46 :: []) =
      .err .invalidAlgorithmType ∧
    argon2Verify (fun _ _ _ _ _ _ => []) (fun _ _ _ _ _ _ => []) (argon2KeyGen [98]) []
      ([97] ++ 46 :: []) = .err .invalidAlgorithmType := by
  have h := envelope_algorithm_mismatch (fun _ x => x) (fun _ _ _ => none)
    (fun _ _ => []) (fun _ _ => []) (fun _ _ _ _ _ _ => []) (fun _ _ _ _ _ _ => [])
    [] AesCbc192 AesCbc128 (by decide) []
    (argon2KeyGen [98]) [97] (by decide) (by decide) [] []
  exact ⟨h.1, h.2.2.2.1⟩

/-- C1: for every AES key of a valid size (128/192/256) and every plaintext
(including empty, one-under-block, exact-block and multi-block), and any
IV/nonce the secure random source draws during `Encrypt`, decrypting the
produced envelope returns the original plaintext — for AES-CBC (given the
block-cipher inversion contract of `aes.NewCipher`) and for AES-GCM (given
the seal/open contract of `cipher.NewGCM`). -/
theorem aes_encrypt_decrypt_roundtrip
    (aesEncB aesDecB : Bytes → Bytes → Bytes)
    (gcmSeal : Bytes → Bytes → Bytes → Bytes)
    (gcmOpen : Bytes → Bytes → Bytes → Option Bytes)
    (key : Bytes) (hkey : validAesKeySize key)
    (hblock : blockCipherInverts (aesEncB key) (aesDecB key))
    (hgcmRT : ∀ nonce pt, gcmOpen key nonce (gcmSeal key nonce pt) = some pt)
    (hgcmValid : ∀ nonce pt, validBytes pt → validBytes (gcmSeal key nonce pt))
    (alg : Algorithm) (pt : Bytes) (hpt : validBytes pt)
    (iv : Bytes) (hivLen : iv.length = 16) (hivValid : validBytes iv)
    (nonce : Bytes) (hnLen : nonce.length = 12) (hnValid : validBytes nonce) :
    (∀ c, aesCbcEncrypt aesEncB ⟨key, alg⟩ iv pt = .ok c →
      aesCbcDecrypt aesDecB ⟨key, alg⟩ c = .ok pt) ∧
    (∀ c, aesGcmEncrypt gcmSeal ⟨key, alg⟩ nonce pt = .ok c →
      aesGcmDecrypt gcmOpen ⟨key, alg⟩ c = .ok pt) := by
  constructor
  · intro c hc
    have hpadmod : (pkcs7Padding pt 16).length % 16 = 0 := pkcs7Padding_mod pt
    have hpadval : validBytes (pkcs7Padding pt 16) := pkcs7Padding_valid hpt
    have hblocks : ∀ b ∈ toBlocks (pkcs7Padding pt 16), b.length = 16 ∧ validBytes b := by
      intro b hb
      refine ⟨toBlocks_block_length _ hpadmod b hb, ?_⟩
      intro x hx
      have hmem : x ∈ (toBlocks (pkcs7Padding pt 16)).flatten :=
        List.mem_flatten.mpr ⟨b, hb, hx⟩
      rw [flatten_toBlocks _ hpadmod] at hmem
      exact hpadval x hmem
    have hebs : ∀ x ∈ cbcEncryptBlocks (aesEncB key) iv (toBlocks (pkcs7Padding pt 16)),
        x.length = 16 ∧ validBytes x :=
      cbcEncryptBlocks_length hblock _ iv hivLen hivValid hblocks
    have henc : aesCbcEncrypt aesEncB ⟨key, alg⟩ iv pt =
        .ok (intRender alg ++ 46 ::
          b64Encode (iv ++
            (cbcEncryptBlocks (aesEncB key) iv (toBlocks (pkcs7Padding pt 16))).flatten)) := by
      simp only [aesCbcEncrypt]
      rw [if_neg (not_not_intro hkey), if_neg (by omega), if_neg (by omega)]
    rw [henc] at hc
    have hceq := (GoResult.ok.inj hc).symm
    subst hceq
    have hflatval : validBytes
        (cbcEncryptBlocks (aesEncB key) iv (toBlocks (pkcs7Padding pt 16))).flatten :=
      flatten_valid _ (fun x hx => (hebs x hx).2)
    have hflatmod :
        (cbcEncryptBlocks (aesEncB key) iv (toBlocks (pkcs7Padding pt 16))).flatten.length
          % 16 = 0 :=
      flatten_all16_mod _ (fun x hx => (hebs x hx).1)
    have hpayloadval : validBytes
        (iv ++ (cbcEncryptBlocks (aesEncB key) iv (toBlocks (pkcs7Padding pt 16))).flatten) := by
      intro x hx
      rcases List.mem_append.mp hx with hx | hx
      · exact hivValid x hx
      · exact hflatval x hx
    simp only [aesCbcDecrypt, splitOnce_append (intRender_no_46 alg), goAtoi_intRender,
      b64Decode_b64Encode _ hpayloadval]
    rw [if_neg (show ¬ alg ≠ alg from fun h => h rfl)]
    rw [if_neg (show ¬ (iv ++ (cbcEncryptBlocks (aesEncB key) iv
        (toBlocks (pkcs7Padding pt 16))).flatten).length < 16 by
      rw [List.length_append, hivLen]; omega)]
    rw [List.take_left' hivLen, List.drop_left' hivLen]
    rw [if_neg (not_not_intro hkey), if_neg (by omega)]
    rw [toBlocks_flatten _ (fun x hx => (hebs x hx).1)]
    rw [cbcDecrypt_cbcEncrypt hblock _ iv hivLen hivValid hblocks]
    rw [flatten_toBlocks _ hpadmod]
    exact pkcs7UnPadding_pkcs7Padding pt
  · intro c hc
    have hsealval : validBytes (gcmSeal key nonce pt) := hgcmValid nonce pt hpt
    have henc : aesGcmEncrypt gcmSeal ⟨key, alg⟩ nonce pt =
        .ok (intRender alg ++ 46 :: b64Encode (nonce ++ gcmSeal key nonce pt)) := by
      simp only [aesGcmEncrypt]
      rw [if_neg (not_not_intro hkey), if_neg (by omega)]
    rw [henc] at hc
    have hceq := (GoResult.ok.inj hc).symm
    subst hceq
    have hpayloadval : validBytes (nonce ++ gcmSeal key nonce pt) := by
      intro x hx
      rcases List.mem_append.mp hx with hx | hx
      · exact hnValid x hx
      · exact hsealval x hx
    simp only [aesGcmDecrypt, splitOnce_append (intRender_no_46 alg), goAtoi_intRender,
      b64Decode_b64Encode _ hpayloadval]
    rw [if_neg (show ¬ alg ≠ alg from fun h => h rfl)]
    rw [if_neg (not_not_intro hkey)]
    rw [if_neg (show ¬ (nonce ++ gcmSeal key nonce pt).length < 12 by
      rw [List.length_append, hnLen]; omega)]
    rw [List.take_left' hnLen, List.drop_left' hnLen, hgcmRT nonce pt]

theorem aes_encrypt_decrypt_roundtrip_witness :
    aesCbcDecrypt (fun _ x => x) ⟨List.replicate 16 0, AesCbc128⟩
      [50, 48, 49, 46, 66, 119, 99, 72, 66, 119, 99, 72, 66, 119, 99, 72, 66, 119, 99, 72,
       66, 119, 99, 72, 66, 50, 57, 117, 67, 81, 107, 74, 67, 81, 107, 74, 67, 81, 107, 74,
       67, 81, 107, 74, 67, 81, 107, 61] = .ok [104, 105] ∧
    aesGcmDecrypt (fun _ _ c => some c) ⟨List.replicate 16 0, AesGcm128⟩
      [50, 48, 52, 46, 65, 119, 77, 68, 65, 119, 77, 68, 65, 119, 77, 68, 65, 119, 77, 68,
       97, 71, 107, 61] = .ok [104, 105] := by
  have h := aes_encrypt_decrypt_roundtrip (fun _ x => x) (fun _ x => x)
    (fun _ _ p => p) (fun _ _ c => some c) (List.replicate 16 0) (by decide)
    (fun b h16 hv => ⟨h16, hv, rfl⟩) (fun _ _ => rfl) (fun _ _ hv => hv)
    AesCbc128 [104, 105] (by decide)
    (List.replicate 16 7) (by decide) (by decide)
    (List.replicate 12 3) (by decide) (by decide)
  have h2 := aes_encrypt_decrypt_roundtrip (fun _ x => x) (fun _ x => x)
    (fun _ _ p => p) (fun _ _ c => some c) (List.replicate 16 0) (by decide)
    (fun b h16 hv => ⟨h16, hv, rfl⟩) (fun _ _ => rfl) (fun _ _ hv => hv)
    AesGcm128 [104, 105] (by decide)
    (List.replicate 16 7) (by decide) (by decide)
    (List.replicate 12 3) (by decide) (by decide)
  exact ⟨h.1 _ (by decide), h2.2 _ (by decide)⟩

theorem scanParams_argon2Params (m t p : Nat) :
    scanParams (argon2Params m t p) = some (m, t, p) := by
  rw [argon2Params]
  simp only [List.cons_append, List.nil_append, List.append_assoc]
  rw [scanParams]
  rw [scanNum_natRender m (44 :: 116 :: 61 :: (natRender t ++ (44 :: 112 :: 61 :: natRender p)))
    (Or.inr ⟨44, _, rfl, by omega⟩)]
  simp only
  rw [scanNum_natRender t (44 :: 112 :: 61 :: natRender p) (Or.inr ⟨44, _, rfl, by omega⟩)]
  simp only
  rw [show natRender p = natRender p ++ [] from (List.append_nil _).symm,
    scanNum_natRender p [] (Or.inl rfl)]

/-- C6 (amended): for every Argon2 key (algorithm tag free of '.', method
free of '$', as `KeyGen`'s argon2i/argon2id methods are), and memory-hard
primitives returning byte-valued digests, `Verify(msg, Sign(msg))` is
`ok true` immediately after signing, and remains `ok true` after the key's
method, salt size, time, memory or thread configuration changes — `Verify`
recomputes from the parameters embedded in the envelope — provided the
configured output length is unchanged, since `Verify` takes the digest
length from the key's current configuration rather than the envelope. -/
theorem argon2_sign_verify_embedded_params
    (argonKey argonIDKey : Bytes → Bytes → Nat → Nat → Nat → Nat → Bytes)
    (hKv : ∀ pwd salt t m p l, validBytes (argonKey pwd salt t m p l))
    (hIDv : ∀ pwd salt t m p l, validBytes (argonIDKey pwd salt t m p l))
    (k k' : Argon2KeyImpl)
    (halg : k'.algorithm = k.algorithm) (hlen : k'.length = k.length)
    (hnd : 46 ∉ k.algorithm) (hm36 : 36 ∉ k.method)
    (salt msg : Bytes) (hsalt : validBytes salt)
    (sig : Bytes) (hsig : argon2Sign argonKey argonIDKey k salt msg = .ok sig) :
    argon2Verify argonKey argonIDKey k' msg sig = .ok true := by
  simp only [argon2Sign] at hsig
  have hsigeq := GoResult.ok.inj hsig
  subst hsigeq
  have hvf36 : (36 : Nat) ∉ ([118, 61] ++ natRender argon2Version : Bytes) := by
    intro hx
    rcases List.mem_append.mp hx with hx | hx
    · rcases List.mem_cons.mp hx with hx | hx
      · omega
      · rcases List.mem_cons.mp hx with hx | hx
        · omega
        · simp at hx
    · exact natRender_no_36 _ hx
  have hdv : validBytes (if k.method = methodArgon2i
      then argonKey msg salt k.time k.memory k.threads k.length
      else argonIDKey msg salt k.time k.memory k.threads k.length) := by
    by_cases hmth : k.method = methodArgon2i
    · rw [if_pos hmth]; exact hKv msg salt k.time k.memory k.threads k.length
    · rw [if_neg hmth]; exact hIDv msg salt k.time k.memory k.threads k.length
  simp only [argon2Verify, splitOnce_append hnd]
  rw [if_neg (show ¬ k.algorithm ≠ k'.algorithm from by rw [halg]; exact fun h => h rfl)]
  have hsplit := splitSepN_five
    (b64RawEncode (if k.method = methodArgon2i
      then argonKey msg salt k.time k.memory k.threads k.length
      else argonIDKey msg salt k.time k.memory k.threads k.length))
    hm36 hvf36 (argon2Params_no_36 k.memory k.time k.threads) (b64RawEncode_no_36 salt)
  simp only [List.append_assoc, List.cons_append, List.nil_append] at hsplit
  simp only [List.append_assoc, List.cons_append, List.nil_append]
  rw [hsplit]
  simp only [show scanVersion (118 :: 61 :: natRender argon2Version) = some argon2Version
    from by decide]
  rw [if_neg (show ¬ argon2Version ≠ argon2Version from fun h => h rfl)]
  simp only [scanParams_argon2Params]
  simp only [b64RawDecode_b64RawEncode salt hsalt]
  simp only [b64RawDecode_b64RawEncode _ hdv]
  rw [hlen]
  simp

theorem argon2_sign_verify_embedded_params_witness :
    argon2Verify (fun _ _ _ _ _ l => List.replicate l 1) (fun _ _ _ _ _ l => List.replicate l 2)
      ⟨[97], methodArgon2i, 7, 9, 16, 3, 4⟩ [104, 105]
      [97, 46, 97, 114, 103, 111, 110, 50, 105, 100, 36, 118, 61, 49, 57, 36, 109, 61, 56,
       44, 116, 61, 49, 44, 112, 61, 49, 36, 67, 81, 103, 36, 65, 103, 73, 67, 65, 103] =
      .ok true := by
  have h := argon2_sign_verify_embedded_params
    (fun _ _ _ _ _ l => List.replicate l 1) (fun _ _ _ _ _ l => List.replicate l 2)
    (fun _ _ _ _ _ l x hx => by
      have := List.eq_of_mem_replicate hx
      omega)
    (fun _ _ _ _ _ l x hx => by
      have := List.eq_of_mem_replicate hx
      omega)
    ⟨[97], methodArgon2id, 2, 1, 8, 1, 4⟩ ⟨[97], methodArgon2i, 7, 9, 16, 3, 4⟩
    rfl rfl (by decide) (by decide) [9, 8] [104, 105] (by decide)
    [97, 46, 97, 114, 103, 111, 110, 50, 105, 100, 36, 118, 61, 49, 57, 36, 109, 61, 56,
     44, 116, 61, 49, 44, 112, 61, 49, 36, 67, 81, 103, 36, 65, 103, 73, 67, 65, 103]
    (by decide)
  exact h

/-- C8 (amended): importing empty key material never constructs a key for
any algorithm; for the algorithms `KeyImport` can dispatch (HMAC-SHA-256/512
and the six AES variants) the failure is the `EmptyKey` error, while for
every other algorithm it is the "not found key importer" error instead. -/
theorem keyImport_empty_material
    (pbkdf2Key : Bytes → Bytes → Nat → Nat → Bytes) (alg : Algorithm) (raw : RawKey)
    (hempty : raw = .bytes [] ∨ raw = .str []) :
    (∀ k, KeyImport pbkdf2Key raw alg ≠ .ok k) ∧
    ((alg = HmacSha256 ∨ alg = HmacSha512 ∨ alg = AesCbc128 ∨ alg = AesCbc192 ∨
      alg = AesCbc256 ∨ alg = AesGcm128 ∨ alg = AesGcm192 ∨ alg = AesGcm256) →
      KeyImport pbkdf2Key raw alg = .err .emptyKey) ∧
    (¬ (alg = HmacSha256 ∨ alg = HmacSha512 ∨ alg = AesCbc128 ∨ alg = AesCbc192 ∨
      alg = AesCbc256 ∨ alg = AesGcm128 ∨ alg = AesGcm192 ∨ alg = AesGcm256) →
      KeyImport pbkdf2Key raw alg = .err .notFoundKeyImporter) := by
  have hmain : KeyImport pbkdf2Key raw alg =
      (if (alg = HmacSha256 ∨ alg = HmacSha512) ∨ (alg = AesCbc128 ∨ alg = AesCbc192 ∨
        alg = AesCbc256 ∨ alg = AesGcm128 ∨ alg = AesGcm192 ∨ alg = AesGcm256)
       then .err .emptyKey else .err .notFoundKeyImporter) := by
    rcases hempty with h | h <;> subst h <;>
      (by_cases h1 : alg = HmacSha256 ∨ alg = HmacSha512
       · rw [if_pos (Or.inl h1)]
         simp [KeyImport, if_pos h1, hmacShaKeyImport, checkAndConvertKey]
       · by_cases h2 : alg = AesCbc128 ∨ alg = AesCbc192 ∨ alg = AesCbc256 ∨
             alg = AesGcm128 ∨ alg = AesGcm192 ∨ alg = AesGcm256
         · rw [if_pos (Or.inr h2)]
           simp [KeyImport, if_neg h1, if_pos h2, aesKeyImport, checkAndConvertKey]
         · rw [if_neg (by tauto)]
           simp [KeyImport, if_neg h1, if_neg h2])
  refine ⟨?_, ?_, ?_⟩
  · intro k
    rw [hmain]
    split <;> simp
  · intro hdisj
    rw [hmain, if_pos (by tauto)]
  · intro hdisj
    rw [hmain, if_neg (by tauto)]

theorem keyImport_empty_material_witness :
    KeyImport (fun _ _ _ _ => []) (.bytes []) HmacSha256 = .err .emptyKey ∧
    KeyImport (fun _ _ _ _ => []) (.str []) Rsa2048 = .err .notFoundKeyImporter := by
  have h1 := keyImport_empty_material (fun _ _ _ _ => []) HmacSha256 (.bytes []) (Or.inl rfl)
  have h2 := keyImport_empty_material (fun _ _ _ _ => []) Rsa2048 (.str []) (Or.inr rfl)
  exact ⟨h1.2.1 (Or.inl rfl), h2.2.2 (by decide)⟩

end CryptoSuite
